import Mathlib

/-!
Verification of the SmartBuddy query-understanding core (src/app.py).

The Python source is shallowly embedded below.  Strings are Lean `String`s
(lists of characters); the ASCII behaviour of Python's `str.lower`,
`str.strip`, `re.sub(r'[^\w\s]', ' ', _)` and `re.sub(r'\s+', ' ', _)` is
modelled character by character.  `difflib.SequenceMatcher` (used by
`NLPProcessor.fuzzy_match`) is modelled faithfully after CPython's
implementation: the `b2j` occurrence table, the quadratic
`find_longest_match` loop with its strict best-update and the two
non-junk extension loops, and the recursive matching-block sum feeding
`ratio = 2*M/T` (with `1.0` returned when `T = 0`).  The junk machinery is
trivial here (`isjunk=None` gives an empty junk set); the `autojunk`
popularity heuristic, which only affects second strings of length `>= 200`,
is not modelled.  Loops that only recurse are given explicit fuel so every
definition is structural and kernel-evaluable.
-/

/-- Python's `\s` class, restricted to ASCII: space, tab, LF, VT, FF, CR. -/
def pyIsSpace (c : Char) : Bool :=
  c = ' ' || c = '\t' || c = '\n' || c = '\x0d' || c = '\x0b' || c = '\x0c'

/-- Python's `\w` class, restricted to ASCII: letters, digits, underscore. -/
def pyIsWord (c : Char) : Bool :=
  c.isAlpha || c.isDigit || c = '_'

/-- `str.lower` on a character list (ASCII case mapping, as `Char.toLower`). -/
def lowerList (l : List Char) : List Char :=
  l.map Char.toLower

/-- `str.lower` on strings. -/
def lowerString (s : String) : String :=
  ⟨lowerList s.data⟩

/-- `str.strip()` : drop leading and trailing whitespace. -/
def stripList (l : List Char) : List Char :=
  (((l.dropWhile pyIsSpace).reverse).dropWhile pyIsSpace).reverse

/-- `re.sub(r'[^\w\s]', ' ', _)` : replace every character that is neither a
word character nor whitespace by a single space. -/
def depunct (l : List Char) : List Char :=
  l.map (fun c => if pyIsWord c || pyIsSpace c then c else ' ')

/-- `re.sub(r'\s+', ' ', _)` : collapse every maximal run of whitespace
characters to one space. -/
def collapseWS : List Char → List Char
  | [] => []
  | [c] => if pyIsSpace c then [' '] else [c]
  | c :: d :: rest =>
    if pyIsSpace c && pyIsSpace d then collapseWS (d :: rest)
    else (if pyIsSpace c then ' ' else c) :: collapseWS (d :: rest)

/-- `NLPProcessor.preprocess_text` on character lists:
`text.lower().strip()`, then punctuation removal, then whitespace collapse.
Note the code strips BEFORE replacing punctuation and never strips again. -/
def preprocessList (l : List Char) : List Char :=
  collapseWS (depunct (stripList (lowerList l)))

/-- `NLPProcessor.preprocess_text`. -/
def preprocess_text (s : String) : String :=
  ⟨preprocessList s.data⟩

/-- Contiguous-subsequence test on character lists. -/
def listContains (n : List Char) : List Char → Bool
  | [] => n.isEmpty
  | c :: rest => n.isPrefixOf (c :: rest) || listContains n rest

/-- Python's `x in y` on strings (contiguous substring test). -/
def isSub (needle hay : String) : Bool :=
  listContains needle.data hay.data

/-- `str.split()` helper: accumulate the current word (reversed). -/
def splitWSAux : List Char → List Char → List (List Char)
  | [], acc => if acc.isEmpty then [] else [acc.reverse]
  | c :: rest, acc =>
    if pyIsSpace c then
      if acc.isEmpty then splitWSAux rest [] else acc.reverse :: splitWSAux rest []
    else splitWSAux rest (c :: acc)

/-- `str.split()` with no arguments: whitespace-separated words, no empties. -/
def splitWS (s : String) : List String :=
  (splitWSAux s.data []).map (fun l => ⟨l⟩)

/-! ## difflib.SequenceMatcher -/

/-- State of `find_longest_match`'s best block. -/
structure FlmState where
  besti : Nat
  bestj : Nat
  bestsize : Nat
deriving DecidableEq, Repr

/-- `j2len.get(j-1, 0) + 1`, with Python's `j2len.get(-1, 0) = 0` at `j = 0`. -/
def kval (j2old : Nat → Nat) (j : Nat) : Nat :=
  if j = 0 then 1 else j2old (j - 1) + 1

/-- One step of the inner `for j in b2j[a[i]]` loop: record the chain length
`k = newj2len[j] = j2len.get(j-1, 0) + 1` in the new map, and update the
best block when `k` is strictly longer. -/
def innerStep (j2old : Nat → Nat) (i : Nat) (acc : FlmState × (Nat → Nat))
    (j : Nat) : FlmState × (Nat → Nat) :=
  ((if kval j2old j > acc.1.bestsize then
      ⟨i + 1 - kval j2old j, j + 1 - kval j2old j, kval j2old j⟩
    else acc.1),
   fun x => if x = j then kval j2old j else acc.2 x)

/-- The positions `j` in `[blo, bhi)` with `b[j] = a[i]` (ascending), i.e.
`b2j.get(a[i], [])` restricted by the inner loop's `continue`/`break`. -/
def jsFor (a b : List Char) (blo bhi i : Nat) : List Nat :=
  (List.range b.length).filter
    (fun j => (b.get? j == a.get? i) && decide (blo ≤ j) && decide (j < bhi))

/-- One iteration of the outer `for i in range(alo, ahi)` loop. -/
def outerStep (a b : List Char) (blo bhi : Nat)
    (acc : FlmState × (Nat → Nat)) (i : Nat) : FlmState × (Nat → Nat) :=
  (jsFor a b blo bhi i).foldl (innerStep acc.2 i) (acc.1, fun _ => 0)

/-- The DP fold over the first `m` outer iterations, specialised to equal
strings over their full range (used to analyse self-similarity). -/
def dpFold (l : List Char) (m : Nat) : FlmState × (Nat → Nat) :=
  (List.range' 0 m).foldl (outerStep l l 0 l.length) (⟨0, 0, 0⟩, fun _ => 0)

/-- The dynamic-programming part of `find_longest_match`. -/
def flmDP (a b : List Char) (alo ahi blo bhi : Nat) : FlmState :=
  ((List.range' alo (ahi - alo)).foldl (outerStep a b blo bhi)
    (⟨alo, blo, 0⟩, fun _ => 0)).1

/-- The first (non-junk) extension loop of `find_longest_match`, walking the
block backwards over equal characters; the fuel is `besti`, enough for every
possible decrement. -/
def extendBack (a b : List Char) (alo blo : Nat) :
    Nat → Nat → Nat → Nat → Nat × Nat × Nat
  | 0, bi, bj, bs => (bi, bj, bs)
  | fuel + 1, bi, bj, bs =>
    if alo < bi ∧ blo < bj ∧ (a.get? (bi - 1)).isSome ∧
        a.get? (bi - 1) = b.get? (bj - 1) then
      extendBack a b alo blo fuel (bi - 1) (bj - 1) (bs + 1)
    else (bi, bj, bs)

/-- The second (non-junk) extension loop, walking the block forwards; the
fuel is `ahi`. -/
def extendFwd (a b : List Char) (ahi bhi : Nat) :
    Nat → Nat → Nat → Nat → Nat
  | 0, _, _, bs => bs
  | fuel + 1, bi, bj, bs =>
    if bi + bs < ahi ∧ bj + bs < bhi ∧ (a.get? (bi + bs)).isSome ∧
        a.get? (bi + bs) = b.get? (bj + bs) then
      extendFwd a b ahi bhi fuel bi bj (bs + 1)
    else bs

/-- `SequenceMatcher.find_longest_match` with an empty junk set
(`isjunk=None`): the DP loop followed by the two live extension loops. -/
def find_longest_match (a b : List Char) (alo ahi blo bhi : Nat) :
    Nat × Nat × Nat :=
  ((extendBack a b alo blo (flmDP a b alo ahi blo bhi).besti
      (flmDP a b alo ahi blo bhi).besti (flmDP a b alo ahi blo bhi).bestj
      (flmDP a b alo ahi blo bhi).bestsize).1,
   (extendBack a b alo blo (flmDP a b alo ahi blo bhi).besti
      (flmDP a b alo ahi blo bhi).besti (flmDP a b alo ahi blo bhi).bestj
      (flmDP a b alo ahi blo bhi).bestsize).2.1,
   extendFwd a b ahi bhi ahi
     (extendBack a b alo blo (flmDP a b alo ahi blo bhi).besti
       (flmDP a b alo ahi blo bhi).besti (flmDP a b alo ahi blo bhi).bestj
       (flmDP a b alo ahi blo bhi).bestsize).1
     (extendBack a b alo blo (flmDP a b alo ahi blo bhi).besti
       (flmDP a b alo ahi blo bhi).besti (flmDP a b alo ahi blo bhi).bestj
       (flmDP a b alo ahi blo bhi).bestsize).2.1
     (extendBack a b alo blo (flmDP a b alo ahi blo bhi).besti
       (flmDP a b alo ahi blo bhi).besti (flmDP a b alo ahi blo bhi).bestj
       (flmDP a b alo ahi blo bhi).bestsize).2.2)

/-- Total size of all matching blocks (`get_matching_blocks` summed), by
recursion on the two remainders of the longest match; the fuel bounds the
recursion depth. -/
def matchSumAux (a b : List Char) :
    Nat → Nat → Nat → Nat → Nat → Nat
  | 0, _, _, _, _ => 0
  | fuel + 1, alo, ahi, blo, bhi =>
    let m := find_longest_match a b alo ahi blo bhi
    if m.2.2 = 0 then 0
    else
      m.2.2 + matchSumAux a b fuel alo m.1 blo m.2.1 +
        matchSumAux a b fuel (m.1 + m.2.2) ahi (m.2.1 + m.2.2) bhi

/-- `M`: the total number of matched characters between `a` and `b`. -/
def matchSum (a b : List Char) : Nat :=
  matchSumAux a b (a.length + b.length + 1) 0 a.length 0 b.length

/-- `NLPProcessor.fuzzy_match`: preprocess both arguments and return
`SequenceMatcher(None, a, b).ratio() * 100 = 200*M/(len a + len b)` as an
exact rational; difflib's `_calculate_ratio` returns `1.0` when both
strings are empty, hence `100` here. -/
def fuzzy_match (q t : String) : ℚ :=
  if (preprocessList q.data).length + (preprocessList t.data).length = 0 then 100
  else 200 * (matchSum (preprocessList q.data) (preprocessList t.data) : ℚ) /
    (((preprocessList q.data).length : ℚ) + ((preprocessList t.data).length : ℚ))

/-- `fuzzy_match q t > thr` for a natural threshold, phrased with integer
arithmetic (`200*M > thr*T`, and `100 > thr` when both preprocessed strings
are empty) so that the kernel can evaluate it; `fuzzyGt_iff` below proves it
equal to the code's rational comparison. -/
def fuzzyGt (q t : String) (thr : Nat) : Bool :=
  if (preprocessList q.data).length + (preprocessList t.data).length = 0 then
    decide (thr < 100)
  else
    decide (thr * ((preprocessList q.data).length + (preprocessList t.data).length)
      < 200 * matchSum (preprocessList q.data) (preprocessList t.data))

/-! ## Synonym expansion and intent detection -/

/-- A synonym table: `(canonical key, synonym list)` pairs in file order. -/
abbrev SynTable := List (String × List String)

/-- `NLPProcessor.expand_synonyms`: split on whitespace; every word pulls in
the canonical key and full synonym list of each group it belongs to.  The
Python code returns `list(set(...))`; only membership in the result is ever
used downstream, so a list with possible duplicates is an equivalent model. -/
def expand_synonyms (syn : SynTable) (text : String) : List String :=
  let words := splitWS text
  words ++ words.flatMap (fun w =>
    syn.flatMap (fun kv => if kv.2.contains w || w == kv.1 then kv.1 :: kv.2 else []))

/-- `any(word in term for term in terms for word in kws)`:
some fixed keyword is a substring of some term. -/
def anyHit (terms kws : List String) : Bool :=
  terms.any (fun t => kws.any (fun w => isSub w t))

/-- The default `synonyms.json` contents created by `DataManager`. -/
def defaultSynonyms : SynTable :=
  [("dbms", ["database management system", "database", "db"]),
   ("cs", ["computer science", "comp sci"]),
   ("java", ["programming", "coding"]),
   ("notes", ["note", "material", "study material"]),
   ("exam", ["test", "examination", "quiz", "exm", "exams", "tests"]),
   ("exm", ["exam", "test", "examination", "quiz"]),
   ("faculty", ["teacher", "professor", "staff", "instructor"]),
   ("schedule", ["timetable", "time", "timing", "class"])]

/-- A stored record value: either the structured `{value, keywords}` dict or
a legacy plain string. -/
inductive RVal where
  | dict (value : String) (keywords : List String)
  | raw (content : String)
deriving DecidableEq, Repr

/-- The `info.json` category set. -/
structure InfoData where
  exam_dates : List (String × RVal)
  faculty : List (String × RVal)
  schedule : List (String × RVal)
  events : List (String × RVal)
  custom_categories : List (String × RVal)
deriving DecidableEq, Repr

/-- An `info.json` snapshot with no records at all. -/
def emptyInfo : InfoData := ⟨[], [], [], [], []⟩

/-- `NLPProcessor._check_category_keywords`: some structured record of the
category has a keyword that contains / is contained in the query or fuzzy
matches it above 80. -/
def check_category_keywords (q : String) (content : List (String × RVal)) : Bool :=
  content.any (fun kv =>
    match kv.2 with
    | .dict _ kws =>
        kws.any (fun kw => isSub q kw || isSub kw q || fuzzyGt q kw 80)
    | .raw _ => false)

/-- The dynamic category fallback of `detect_intent`, in the code's fixed
order `exam_dates, faculty, schedule, events` with
`f"{category.split('_')[0]}_info"` result names. -/
def detectFallback (info : InfoData) (q : String) : Option String :=
  if check_category_keywords q info.exam_dates then some "exam_info"
  else if check_category_keywords q info.faculty then some "faculty_info"
  else if check_category_keywords q info.schedule then some "schedule_info"
  else if check_category_keywords q info.events then some "events_info"
  else none

/-- `all_terms = {text_lower} ∪ expand_synonyms(text_lower)` of
`detect_intent` (membership-equivalent list). -/
def intentTerms (syn : SynTable) (text : String) : List String :=
  lowerString text :: expand_synonyms syn (lowerString text)

/-- `NLPProcessor.detect_intent`: lowercase (not preprocess) the text, build
`all_terms = {text_lower} ∪ expand_synonyms(text_lower)`, then test the
fixed keyword sets in priority order with first match winning, falling back
to the dynamic category check and finally `'unknown'`. -/
def detect_intent (syn : SynTable) (info : InfoData) (text : String) : String :=
  let terms := intentTerms syn text
  if anyHit terms ["note", "notes", "material", "pdf"] then "notes_request"
  else if anyHit terms ["exam", "test", "examination", "exm", "quiz"] then "exam_info"
  else if anyHit terms ["faculty", "teacher", "professor", "staff"] then "faculty_info"
  else if anyHit terms ["schedule", "timetable", "class", "time"] then "schedule_info"
  else if anyHit terms ["event", "events", "activity", "activities"] then "events_info"
  else if anyHit terms ["mental", "health", "stress", "anxiety"] then "mental_health"
  else if anyHit terms ["help", "hi", "hello", "hey"] then "help_greeting"
  else
    match detectFallback info (lowerString text) with
    | some r => r
    | none => "unknown"

/-! ## Notes metadata -/

/-- One entry of `notes_metadata.json`. -/
structure Note where
  id : Nat
  display_name : String
  filename : String
  keywords : List String
  uploaded_at : String
deriving DecidableEq, Repr

/-- `NotesManager.add_note` on the metadata list: the new note gets
`id = len(metadata) + 1` and is appended. -/
def add_note (md : List Note) (display_name filename : String)
    (keywords : List String) (uploaded_at : String) : List Note :=
  md ++ [{ id := md.length + 1, display_name := display_name,
           filename := filename, keywords := keywords,
           uploaded_at := uploaded_at }]

/-- `NotesManager.delete_note` on the metadata list: remove the first note
with the given id (the list is unchanged when no note matches). -/
def delete_note (md : List Note) (note_id : Nat) : List Note :=
  md.eraseP (fun n => n.id == note_id)

/-- `NotesManager.get_all_notes`: the stored metadata list, as is. -/
def get_all_notes (md : List Note) : List Note := md

/-- The deduplicated expanded word set used by the scoring passes
(`set(query_words)` unioned with each word's expansion); scores are sums
over this set, so order is irrelevant and duplicates must be removed. -/
def expandedWords (syn : SynTable) (qclean : String) : List String :=
  let ws := splitWS qclean
  (ws ++ ws.flatMap (fun w => expand_synonyms syn w)).dedup

/-- Per-note score of `NotesManager.search_notes`. -/
def noteScore (ws : List String) (qclean : String) (n : Note) : Nat :=
  let dn := preprocess_text n.display_name
  let fn := preprocess_text ⟨n.filename.data.takeWhile (· ≠ '.')⟩
  let kws := n.keywords.map preprocess_text
  (ws.foldl (fun acc w =>
    acc +
    (if isSub w dn || isSub dn w then 35
     else if fuzzyGt w dn 70 then 20 else 0) +
    (if isSub w fn || isSub fn w then 30
     else if fuzzyGt w fn 70 then 15 else 0) +
    kws.foldl (fun a kw =>
      a + (if isSub w kw || isSub kw w then 25
           else if fuzzyGt w kw 70 then 15 else 0)) 0) 0) +
  (if ["notes", "material", "study", "pdf"].any (fun p => isSub p qclean)
   then 5 else 0)

/-- Stable descending insertion by a boolean "strictly greater or stays
before" test: `y` stays before `x` whenever `ge y x`. -/
def insertByDesc {α : Type} (ge : α → α → Bool) (x : α) : List α → List α
  | [] => [x]
  | y :: ys => if ge y x then y :: insertByDesc ge x ys else x :: y :: ys

/-- Stable sort, descending, earlier elements first on equal keys (the
behaviour of Python's `list.sort(key=..., reverse=True)`). -/
def sortDesc {α : Type} (ge : α → α → Bool) (l : List α) : List α :=
  l.foldl (fun acc x => insertByDesc ge x acc) []

/-- The `(score, uploaded_at)` descending comparison used by
`search_notes`; `ge y x` holds when `y`'s key is at least `x`'s. -/
def scoreKeyGe (y x : Nat × Note) : Bool :=
  decide (x.1 < y.1) || (x.1 == y.1 && !(decide (y.2.uploaded_at < x.2.uploaded_at)))

/-- `NotesManager.search_notes`: score every note against the expanded
query words, keep scores above 10, sort by `(score, uploaded_at)`
descending, return the notes. -/
def search_notes (syn : SynTable) (md : List Note) (query : String) : List Note :=
  let qclean := preprocess_text query
  let ws := expandedWords syn qclean
  let scored := (md.map (fun n => (noteScore ws qclean n, n))).filter
    (fun p => 10 < p.1)
  (sortDesc scoreKeyGe scored).map (·.2)

/-! ## Responses and the ChatBot -/

/-- The response descriptors produced by `ChatBot` (`type` field variants
`text`, `note_download`, `notes_list`). -/
inductive Response where
  | text (message : String)
  | note_download (message : String) (note : Note)
  | notes_list (message : String) (notes : List Note)
deriving DecidableEq, Repr

/-- `f"**{key}**: {value}"`. -/
def recordLine (key value : String) : String :=
  "**" ++ key ++ "**: " ++ value

/-- Per-record score of `ChatBot._try_direct_keyword_match` for a
structured record: keyword hits (+40 substring / +25 fuzzy over 70), key
hits (+35 / +20), and a +5 interrogative-cue boost granted once per
record. -/
def globalScore (ws : List String) (qclean key : String)
    (kws : List String) : Nat :=
  (kws.foldl (fun acc kw =>
    acc + ws.foldl (fun a w =>
      a + (if isSub w kw || isSub kw w then 40
           else if fuzzyGt w kw 70 then 25 else 0)) 0) 0) +
  (ws.foldl (fun a w =>
    a + (if isSub w (lowerString key) || isSub (lowerString key) w then 35
         else if fuzzyGt w (lowerString key) 70 then 20 else 0)) 0) +
  (if ["when", "what", "where", "how", "start", "begin"].any
      (fun p => isSub p qclean) then 5 else 0)

/-- Score of a `(key, value)` pair in the global pass; legacy plain-string
records are skipped by the code (they never update the best match), which
is modelled as a zero score that can never exceed the running best. -/
def globalPairScore (ws : List String) (qclean : String)
    (kv : String × RVal) : Nat :=
  match kv.2 with
  | .dict _ kws => globalScore ws qclean kv.1 kws
  | .raw _ => 0

/-- The message built from the best pair (`display_value` of a structured
record, the plain content of a legacy one). -/
def pairLine (kv : String × RVal) : String :=
  match kv.2 with
  | .dict v _ => recordLine kv.1 v
  | .raw c => recordLine kv.1 c

/-- Running best update with a strict comparison (ties keep the earlier
record), as `if score > best_score` in the code; generic over the score
type (`Nat` for the global and notes passes, `ℚ` for the category pass). -/
def bestStep {α : Type} {β : Type} [LinearOrder β] (score : α → β)
    (acc : β × Option α) (x : α) : β × Option α :=
  if score x > acc.1 then (score x, some x) else acc

/-- `best_score`/`best_match` tracking over a record list, starting from
`(z, none)` with `z` the zero score. -/
def bestFold {α : Type} {β : Type} [LinearOrder β] (z : β) (score : α → β)
    (l : List α) : β × Option α :=
  l.foldl (bestStep score) (z, none)

/-- The standard-category records in the code's iteration order
(`exam_dates, faculty, schedule, events`). -/
def stdPairs (info : InfoData) : List (String × RVal) :=
  info.exam_dates ++ info.faculty ++ info.schedule ++ info.events

/-- The `custom_categories` part of the global loop, iterated last: a
structured custom record is scored like a standard one; a plain-string one
whose key substring-matches some expanded word returns `key: value`
immediately, bypassing the threshold. -/
def customLoop (ws : List String) (qclean : String) :
    List (String × RVal) → Nat × Option (String × RVal) →
      Except String (Nat × Option (String × RVal))
  | [], acc => .ok acc
  | (k, RVal.dict v kws) :: rest, acc =>
      customLoop ws qclean rest
        (bestStep (globalPairScore ws qclean) acc (k, RVal.dict v kws))
  | (k, RVal.raw v) :: rest, acc =>
      if ws.any (fun w =>
          isSub w (lowerString k) || isSub (lowerString k) w) then
        .error (recordLine k v)
      else customLoop ws qclean rest acc

/-- `ChatBot._try_direct_keyword_match`: scan every category, keep the
single best-scoring structured record, let plain custom categories return
immediately on a key hit, and answer only when the best score exceeds 15. -/
def try_direct_keyword_match (syn : SynTable) (info : InfoData)
    (query : String) : Option String :=
  let qclean := preprocess_text query
  let ws := expandedWords syn qclean
  let acc := bestFold 0 (globalPairScore ws qclean) (stdPairs info)
  match customLoop ws qclean info.custom_categories acc with
  | .error msg => some msg
  | .ok (best, bm) =>
      if best > 15 then bm.map pairLine else none

/-- `f"No {category.replace('_', ' ')} information is available yet."`. -/
def noInfoMsg (category : String) : String :=
  "No " ++ (⟨category.data.map (fun c => if c = '_' then ' ' else c)⟩ : String)
    ++ " information is available yet."

/-- Per-record score of `ChatBot._handle_info_request`: exact/partial/fuzzy
keyword hits, key and value substring hits, and the two continuous
`fuzzy_match * 0.1` terms, as an exact rational. -/
def infoScore (qclean : String) (kv : String × RVal) : ℚ :=
  let dv : String := match kv.2 with | .dict v _ => v | .raw c => c
  let kws : List String := match kv.2 with | .dict _ ks => ks | .raw _ => []
  (kws.foldl (fun acc kw =>
    acc + (if qclean == kw then (50 : ℚ)
           else if isSub qclean kw || isSub kw qclean then 30
           else if fuzzyGt qclean kw 60 then 20 else 0)) 0) +
  (if isSub qclean (lowerString kv.1) then (15 : ℚ) else 0) +
  (if isSub qclean (lowerString dv) then (10 : ℚ) else 0) +
  fuzzy_match qclean kv.1 * (1 / 10) +
  fuzzy_match qclean dv * (1 / 10)

/-- The "dump the whole category" fallback message: every record as a
`**key**: value` line followed by a blank line. -/
def dumpMsg (content : List (String × RVal)) : String :=
  content.foldl (fun acc kv => acc ++ pairLine kv ++ "\n\n") ""

/-- `ChatBot._handle_info_request` for one category: empty (or absent,
which loads as empty) category gives the no-information text; otherwise the
best record is returned alone when its score exceeds 5, else the whole
category is dumped. -/
def handle_info_request (category : String)
    (content : List (String × RVal)) (query : String) : Response :=
  if content.isEmpty then .text (noInfoMsg category)
  else
    match (bestFold 0 (infoScore (preprocess_text query)) content).2 with
    | some kv =>
        if (bestFold 0 (infoScore (preprocess_text query)) content).1 > 5 then
          .text (pairLine kv)
        else .text (dumpMsg content)
    | none => .text (dumpMsg content)

/-- `ChatBot._handle_notes_request`: list-everything keywords skip scoring
and return `get_all_notes()` as stored; otherwise the ranked search's best
hit is offered for download, with the full list (or an apology) as
fallback. -/
def handle_notes_request (syn : SynTable) (md : List Note)
    (query : String) : Response :=
  let qclean := preprocess_text query
  if qclean ∈ ["note", "notes", "show notes", "list notes"] then
    if (get_all_notes md).isEmpty then
      .text "No notes are currently available. Please contact admin to add study materials."
    else
      .notes_list "Here are all available notes:" (get_all_notes md)
  else
    match search_notes syn md query with
    | best :: _ =>
        .note_download (best.display_name ++ " notes:") best
    | [] =>
        if md.isEmpty then
          .text "No notes found for that topic, and no other notes are available yet."
        else .notes_list "Available notes:" md

/-- A `knowledge_base.json` entry. -/
structure QA where
  question : String
  answer : String
deriving DecidableEq, Repr

/-- An `unanswered_queries.json` entry. -/
structure UnansweredQuery where
  query : String
  asked_at : String
deriving DecidableEq, Repr

/-- The fixed fallback text of `ChatBot._handle_unknown_query`. -/
def unknownMsg : String :=
  "I'm sorry, I don't have information about that yet. I've noted your question and admin can help provide an answer for future queries. Is there anything else I can help you with?"

/-- `ChatBot._handle_unknown_query`: the first knowledge-base entry whose
question fuzzy-matches the query above 75 answers it verbatim; otherwise
one `{query, asked_at}` record is appended to the unanswered list and the
fixed fallback text is returned.  The timestamp is a parameter (the code
takes `datetime.now()` from its clock collaborator). -/
def handle_unknown_query (kb : List QA) (unanswered : List UnansweredQuery)
    (query ts : String) : Response × List UnansweredQuery :=
  match kb.find? (fun qa => fuzzyGt query qa.question 75) with
  | some qa => (.text qa.answer, unanswered)
  | none => (.text unknownMsg, unanswered ++ [⟨query, ts⟩])

/-- The fixed mental-health tip list. -/
def mentalTips : List String :=
  ["Take deep breaths and practice mindfulness",
   "Take regular breaks during study sessions",
   "Get enough sleep and maintain a healthy routine",
   "Talk to friends, family, or counselors when feeling stressed",
   "Exercise regularly to reduce stress and anxiety",
   "Break large tasks into smaller, manageable pieces"]

/-- `ChatBot._handle_mental_health`: a fixed static text. -/
def handle_mental_health : Response :=
  .text ((mentalTips.foldl (fun acc tip => acc ++ "• " ++ tip ++ "\n")
    "Here are some mental health tips for students:\n\n") ++
    "\n💡 Remember: It's okay to ask for help when you need it!")

/-- `ChatBot._handle_greeting`: a fixed static text. -/
def handle_greeting : Response :=
  .text "👋 Hello! I'm SmartBuddy, your AI-powered college assistant with offline Natural Language Processing.\n\n\n📚 **What I Can Help With:**\n\nJust ask naturally"

/-- The intent-dispatch part of `ChatBot.process_query` (everything after
the global keyword pass). -/
def dispatchIntent (syn : SynTable) (info : InfoData) (md : List Note)
    (kb : List QA) (unanswered : List UnansweredQuery) (ts query : String)
    (intent : String) : Response × List UnansweredQuery :=
  if intent == "notes_request" then (handle_notes_request syn md query, unanswered)
  else if intent == "exam_info" then
    (handle_info_request "exam_dates" info.exam_dates query, unanswered)
  else if intent == "faculty_info" then
    (handle_info_request "faculty" info.faculty query, unanswered)
  else if intent == "schedule_info" then
    (handle_info_request "schedule" info.schedule query, unanswered)
  else if intent == "events_info" then
    (handle_info_request "events" info.events query, unanswered)
  else if intent == "mental_health" then (handle_mental_health, unanswered)
  else if intent == "help_greeting" then (handle_greeting, unanswered)
  else handle_unknown_query kb unanswered query ts

/-- `ChatBot.process_query`: the global keyword match answers directly when
it hits; otherwise the detected intent is dispatched. -/
def process_query (syn : SynTable) (info : InfoData) (md : List Note)
    (kb : List QA) (unanswered : List UnansweredQuery) (ts query : String) :
    Response × List UnansweredQuery :=
  match try_direct_keyword_match syn info query with
  | some msg => (.text msg, unanswered)
  | none => dispatchIntent syn info md kb unanswered ts query
      (detect_intent syn info query)

/-! ## Concrete instances used in the theorems -/

/-- The C6 category set: one exam-dates record, everything else empty. -/
def midtermInfo : InfoData :=
  ⟨[("Midterm", .dict "Oct 5" ["midterm", "exam1"])], [], [], [], []⟩

/-- An earlier-uploaded note. -/
def noteOld : Note :=
  ⟨1, "Algebra", "20240101_alg.pdf", ["algebra"], "2024-01-01T00:00:00"⟩

/-- A later-uploaded note. -/
def noteNew : Note :=
  ⟨2, "Biology", "20240102_bio.pdf", ["biology"], "2024-01-02T00:00:00"⟩

/-- The C7 synonym table. -/
def exTable : SynTable := [("exam", ["test", "quiz"])]

/-- A chained synonym table: `test` links to a further group. -/
def chainTable : SynTable := [("exam", ["test"]), ("test", ["deep"])]

/-- A one-record category sharing no character with the query `"zz"`. -/
def plainContent : List (String × RVal) := [("aa", .raw "bb")]

/-- Whitespace test on the head of a character list (invariant helper for
`collapseWS`). -/
def headSpace : List Char → Bool
  | [] => false
  | c :: _ => pyIsSpace c

/-- No two adjacent whitespace characters (invariant produced by
`collapseWS`). -/
def nts : List Char → Bool
  | [] => true
  | c :: rest => (!(pyIsSpace c && headSpace rest)) && nts rest

/-! ## Helper lemmas -/

/-- The integer-arithmetic `fuzzyGt` is exactly the code's rational
threshold comparison `fuzzy_match q t > thr`. -/
theorem fuzzyGt_iff (q t : String) (thr : Nat) :
    fuzzyGt q t thr = decide ((thr : ℚ) < fuzzy_match q t) := by
  unfold fuzzyGt fuzzy_match
  by_cases h : (preprocessList q.data).length + (preprocessList t.data).length = 0
  · rw [if_pos h, if_pos h, decide_eq_decide]
    exact_mod_cast Iff.rfl
  · rw [if_neg h, if_neg h, decide_eq_decide]
    have hpos : (0 : ℚ) <
        ((preprocessList q.data).length : ℚ) + ((preprocessList t.data).length : ℚ) := by
      have h2 : 0 < (preprocessList q.data).length + (preprocessList t.data).length :=
        Nat.pos_of_ne_zero h
      exact_mod_cast h2
    rw [lt_div_iff₀ hpos]
    exact_mod_cast Iff.rfl

/-- `anyHit` holds as soon as one fixed keyword is a substring of one term. -/
theorem anyHit_of_mem {terms kws : List String} {t w : String}
    (ht : t ∈ terms) (hw : w ∈ kws) (h : isSub w t = true) :
    anyHit terms kws = true := by
  unfold anyHit
  rw [List.any_eq_true]
  exact ⟨t, ht, by rw [List.any_eq_true]; exact ⟨w, hw, h⟩⟩

section BestFoldLemmas

variable {α β : Type} [LinearOrder β] (f : α → β)

/-- The running best never decreases. -/
theorem bestFold_fst_mono :
    ∀ (l : List α) (b : β) (m : Option α), b ≤ (l.foldl (bestStep f) (b, m)).1 := by
  intro l
  induction l with
  | nil => intro b m; exact le_refl b
  | cons x xs ih =>
      intro b m
      simp only [List.foldl_cons]
      unfold bestStep
      by_cases h : f x > b
      · rw [if_pos h]
        exact le_trans (le_of_lt h) (ih (f x) (some x))
      · rw [if_neg h]
        exact ih b m

/-- Every scanned element's score is at most the final best. -/
theorem bestFold_fst_ge :
    ∀ (l : List α) (b : β) (m : Option α) (y : α), y ∈ l →
      f y ≤ (l.foldl (bestStep f) (b, m)).1 := by
  intro l
  induction l with
  | nil => intro b m y hy; cases hy
  | cons x xs ih =>
      intro b m y hy
      simp only [List.foldl_cons]
      rcases List.mem_cons.1 hy with rfl | hy'
      · unfold bestStep
        by_cases h : f y > b
        · rw [if_pos h]
          exact bestFold_fst_mono f xs (f y) (some y)
        · rw [if_neg h]
          exact le_trans (le_of_not_lt h) (bestFold_fst_mono f xs b m)
      · unfold bestStep
        by_cases h : f x > b
        · rw [if_pos h]; exact ih (f x) (some x) y hy'
        · rw [if_neg h]; exact ih b m y hy'

/-- The final best is bounded by any bound on the start value and scores. -/
theorem bestFold_fst_le :
    ∀ (l : List α) (b : β) (m : Option α) (c : β), b ≤ c →
      (∀ y ∈ l, f y ≤ c) → (l.foldl (bestStep f) (b, m)).1 ≤ c := by
  intro l
  induction l with
  | nil => intro b m c hb _; exact hb
  | cons x xs ih =>
      intro b m c hb hall
      simp only [List.foldl_cons]
      unfold bestStep
      by_cases h : f x > b
      · rw [if_pos h]
        exact ih (f x) (some x) c (hall x (List.mem_cons_self x xs))
          (fun y hy => hall y (List.mem_cons_of_mem x hy))
      · rw [if_neg h]
        exact ih b m c hb (fun y hy => hall y (List.mem_cons_of_mem x hy))

/-- If the fold ends with no best record, none was installed: the state is
the initial one. -/
theorem bestFold_snd_none :
    ∀ (l : List α) (b : β) (m : Option α),
      (l.foldl (bestStep f) (b, m)).2 = none →
        m = none ∧ (l.foldl (bestStep f) (b, m)).1 = b := by
  intro l
  induction l with
  | nil => intro b m h; exact ⟨h, rfl⟩
  | cons x xs ih =>
      intro b m h
      simp only [List.foldl_cons] at h ⊢
      unfold bestStep at h ⊢
      by_cases hx : f x > b
      · rw [if_pos hx] at h
        exact absurd (ih (f x) (some x) h).1 (by simp)
      · rw [if_neg hx] at h ⊢
        exact ih b m h

/-- A final best record achieves the final best score, and is the initial
record or a member of the list. -/
theorem bestFold_snd_some :
    ∀ (l : List α) (b : β) (m : Option α) (x : α),
      (∀ y, m = some y → f y = b) →
      (l.foldl (bestStep f) (b, m)).2 = some x →
        f x = (l.foldl (bestStep f) (b, m)).1 ∧ (m = some x ∨ x ∈ l) := by
  intro l
  induction l with
  | nil => intro b m x hm h; exact ⟨(hm x h).symm ▸ (hm x h), Or.inl h⟩
  | cons e xs ih =>
      intro b m x hm h
      simp only [List.foldl_cons] at h ⊢
      unfold bestStep at h ⊢
      by_cases he : f e > b
      · rw [if_pos he] at h ⊢
        have := ih (f e) (some e) x (fun y hy => by cases hy; rfl) h
        exact ⟨this.1, Or.inr (by
          rcases this.2 with h1 | h1
          · exact (Option.some_inj.1 h1) ▸ List.mem_cons_self e xs
          · exact List.mem_cons_of_mem e h1)⟩
      · rw [if_neg he] at h ⊢
        have := ih b m x hm h
        exact ⟨this.1, by
          rcases this.2 with h1 | h1
          · exact Or.inl h1
          · exact Or.inr (List.mem_cons_of_mem e h1)⟩

end BestFoldLemmas

/-! ## Claims C3, C4, C5, C7, C10 -/

/-- Claim C3 counterexample: with two documents uploaded at different
times, the notes-request handler on the query `"notes"` returns the stored
metadata order — the OLDER document first — and not the newest-first order
the claim demands. -/
theorem c3_counterexample :
    handle_notes_request [] [noteOld, noteNew] "notes"
      = .notes_list "Here are all available notes:" [noteOld, noteNew] ∧
    noteOld.uploaded_at = "2024-01-01T00:00:00" ∧
    noteNew.uploaded_at = "2024-01-02T00:00:00" ∧
    noteOld.uploaded_at ≠ noteNew.uploaded_at ∧
    handle_notes_request [] [noteOld, noteNew] "notes"
      ≠ .notes_list "Here are all available notes:" [noteNew, noteOld] :=
  ⟨by decide, rfl, rfl, by decide, by decide⟩

/-- Claim C3 (amended): for every query whose normalized text is exactly
one of `{note, notes, show notes, list notes}` and a non-empty store, the
handler skips scoring and returns ALL documents in stored metadata order
(insertion order, i.e. oldest first) — not sorted by upload time
descending. -/
theorem c3_list_all (syn : SynTable) (md : List Note) (q : String)
    (h1 : preprocess_text q ∈ ["note", "notes", "show notes", "list notes"])
    (h2 : md ≠ []) :
    handle_notes_request syn md q
      = .notes_list "Here are all available notes:" md := by
  unfold handle_notes_request
  rw [if_pos h1]
  rw [if_neg (by simpa [get_all_notes, List.isEmpty_iff] using h2)]
  rfl

/-- Claim C3 witness: the amended theorem at the two-document store. -/
theorem c3_list_all_witness :
    preprocess_text "notes" ∈ ["note", "notes", "show notes", "list notes"] ∧
    ([noteOld, noteNew] : List Note) ≠ [] ∧
    handle_notes_request [] [noteOld, noteNew] "notes"
      = .notes_list "Here are all available notes:" [noteOld, noteNew] :=
  ⟨by decide, by decide, c3_list_all [] [noteOld, noteNew] "notes" (by decide) (by decide)⟩

/-- Claim C4: the id scheme `id = len(metadata) + 1` reuses ids after a
deletion: `add A, add B, delete 1, add C` leaves two notes that BOTH carry
id 2, violating the unique/monotone id invariant of the data model. -/
theorem c4_id_collision :
    ((add_note (delete_note (add_note (add_note [] "A" "a.pdf" ["x"] "t1")
        "B" "b.pdf" ["y"] "t2") 1) "C" "c.pdf" ["z"] "t3").map Note.id)
      = [2, 2] ∧
    ¬ List.Pairwise (· ≠ ·)
      ((add_note (delete_note (add_note (add_note [] "A" "a.pdf" ["x"] "t1")
        "B" "b.pdf" ["y"] "t2") 1) "C" "c.pdf" ["z"] "t3").map Note.id) :=
  ⟨by decide, by decide⟩

/-- Claim C5: the documents check is the first branch of `detect_intent`,
so any query whose term set has a document-cue substring hit resolves to
`notes_request` — even when an exam cue is present as well; the function
is pure, hence deterministic on equal inputs. -/
theorem c5_doc_priority (syn : SynTable) (info : InfoData) (text : String)
    (hdoc : anyHit (intentTerms syn text) ["note", "notes", "material", "pdf"] = true)
    (_hexam : anyHit (intentTerms syn text)
      ["exam", "test", "examination", "exm", "quiz"] = true) :
    detect_intent syn info text = "notes_request" := by
  unfold detect_intent
  simp only [hdoc, if_true]

/-- Claim C5 witness: `"exam notes"` carries both cues and resolves to
`notes_request` under the default synonym table. -/
theorem c5_doc_priority_witness :
    anyHit (intentTerms defaultSynonyms "exam notes")
      ["note", "notes", "material", "pdf"] = true ∧
    anyHit (intentTerms defaultSynonyms "exam notes")
      ["exam", "test", "examination", "exm", "quiz"] = true ∧
    detect_intent defaultSynonyms emptyInfo "exam notes" = "notes_request" :=
  ⟨by decide, by decide,
    c5_doc_priority defaultSynonyms emptyInfo "exam notes" (by decide) (by decide)⟩

/-- Claim C10: greeting detection tests `word in term` for the fixed word
`"hi"`, so any query whose lowercased text contains `"hi"` anywhere (for
example inside `which`) and whose term set escapes every higher-priority
keyword set resolves to `help_greeting`, never reaching the dynamic
category fallback or `unknown`. -/
theorem c10_hi_greeting (syn : SynTable) (info : InfoData) (text : String)
    (h1 : anyHit (intentTerms syn text) ["note", "notes", "material", "pdf"] = false)
    (h2 : anyHit (intentTerms syn text)
      ["exam", "test", "examination", "exm", "quiz"] = false)
    (h3 : anyHit (intentTerms syn text) ["faculty", "teacher", "professor", "staff"] = false)
    (h4 : anyHit (intentTerms syn text) ["schedule", "timetable", "class", "time"] = false)
    (h5 : anyHit (intentTerms syn text) ["event", "events", "activity", "activities"] = false)
    (h6 : anyHit (intentTerms syn text) ["mental", "health", "stress", "anxiety"] = false)
    (hhi : isSub "hi" (lowerString text) = true) :
    detect_intent syn info text = "help_greeting" := by
  have hg : anyHit (intentTerms syn text) ["help", "hi", "hello", "hey"] = true :=
    anyHit_of_mem (t := lowerString text) (w := "hi")
      (List.mem_cons_self _ _) (by decide) hhi
  unfold detect_intent
  simp only [h1, h2, h3, h4, h5, h6, hg, if_true, Bool.false_eq_true, if_false]

/-- Claim C10 witness: `"which"` contains `"hi"`, hits nothing of higher
priority, and resolves to the greeting intent. -/
theorem c10_hi_greeting_witness :
    isSub "hi" (lowerString "which") = true ∧
    detect_intent defaultSynonyms emptyInfo "which" = "help_greeting" :=
  ⟨by decide,
    c10_hi_greeting defaultSynonyms emptyInfo "which" (by decide) (by decide)
      (by decide) (by decide) (by decide) (by decide) (by decide)⟩

/-- Claim C7: synonym expansion contains its input token (any
single-word token), the example table `{exam: [test, quiz]}` expands both
`test` and `quiz` to exactly `{test, exam, quiz}`, and a term pulled in by
one group is not itself re-expanded (no transitive closure: with
`{exam: [test], test: [deep]}`, expanding `exam` never reaches `deep`). -/
theorem c7_expand :
    (∀ (tok : String) (syn : SynTable), splitWS tok = [tok] →
      tok ∈ expand_synonyms syn tok) ∧
    (∀ x : String, x ∈ expand_synonyms exTable "test" ↔
      x ∈ (["test", "exam", "quiz"] : List String)) ∧
    (∀ x : String, x ∈ expand_synonyms exTable "quiz" ↔
      x ∈ expand_synonyms exTable "test") ∧
    "deep" ∉ expand_synonyms chainTable "exam" := by
  refine ⟨?_, ?_, ?_, ?_⟩
  · intro tok syn h
    unfold expand_synonyms
    rw [h]
    exact List.mem_append.2 (Or.inl (List.mem_singleton.2 rfl))
  · intro x
    have h1 : expand_synonyms exTable "test" = ["test", "exam", "test", "quiz"] := by decide
    rw [h1]
    simp only [List.mem_cons, List.not_mem_nil, or_false]
    tauto
  · intro x
    have h1 : expand_synonyms exTable "test" = ["test", "exam", "test", "quiz"] := by decide
    have h2 : expand_synonyms exTable "quiz" = ["quiz", "exam", "test", "quiz"] := by decide
    rw [h1, h2]
    simp only [List.mem_cons, List.not_mem_nil, or_false]
    tauto
  · decide

/-- Claim C7 witness: the membership part at the token `"test"`. -/
theorem c7_expand_witness :
    splitWS "test" = ["test"] ∧ "test" ∈ expand_synonyms exTable "test" :=
  ⟨by decide, c7_expand.1 "test" exTable (by decide)⟩

/-! ## Claim C8 -/

/-- A successful `find?` result sits at a first index: every earlier
element fails the predicate. -/
theorem find?_first_index {α : Type} (p : α → Bool) :
    ∀ (l : List α) (a : α), l.find? p = some a →
      ∃ i, ∃ h : i < l.length, l.get ⟨i, h⟩ = a ∧ p a = true ∧
        ∀ j, ∀ hj : j < l.length, j < i → p (l.get ⟨j, hj⟩) = false := by
  intro l
  induction l with
  | nil => intro a h; cases h
  | cons x xs ih =>
      intro a h
      by_cases hx : p x = true
      · rw [List.find?_cons_of_pos _ hx] at h
        refine ⟨0, Nat.succ_pos _, ?_, ?_, ?_⟩
        · simpa using Option.some_inj.1 h
        · rw [← Option.some_inj.1 h]; exact hx
        · intro j hj hj0; cases hj0
      · have hx' : p x = false := by
          cases hpx : p x
          · rfl
          · exact absurd hpx hx
        rw [List.find?_cons_of_neg _ (by simp [hx'])] at h
        obtain ⟨i, hi, hget, hpa, hfirst⟩ := ih a h
        refine ⟨i + 1, Nat.succ_lt_succ hi, by simpa using hget, hpa, ?_⟩
        intro j hj hj1
        cases j with
        | zero => simpa using hx'
        | succ j' =>
            have hj' : j' < xs.length := Nat.lt_of_succ_lt_succ hj
            have := hfirst j' hj' (Nat.lt_of_succ_lt_succ hj1)
            simpa using this

/-- Claim C8: on the unknown-intent path, if some knowledge-base entry's
question fuzzy-matches the query above 75 then the FIRST such entry (in
collection order) answers verbatim and the unanswered log is untouched;
otherwise exactly one `{query, timestamp}` record is appended and the
fixed fallback text is returned. -/
theorem c8_unknown :
    (∀ (kb : List QA) (uq : List UnansweredQuery) (q ts : String),
      (∃ qa ∈ kb, 75 < fuzzy_match q qa.question) →
      ∃ i, ∃ h : i < kb.length,
        75 < fuzzy_match q (kb.get ⟨i, h⟩).question ∧
        (∀ j, ∀ hj : j < kb.length, j < i →
          ¬ 75 < fuzzy_match q (kb.get ⟨j, hj⟩).question) ∧
        handle_unknown_query kb uq q ts = (.text (kb.get ⟨i, h⟩).answer, uq)) ∧
    (∀ (kb : List QA) (uq : List UnansweredQuery) (q ts : String),
      (∀ qa ∈ kb, ¬ 75 < fuzzy_match q qa.question) →
      handle_unknown_query kb uq q ts = (.text unknownMsg, uq ++ [⟨q, ts⟩]) ∧
      ((handle_unknown_query kb uq q ts).2).length = uq.length + 1) := by
  have key : ∀ (q : String) (qa : QA),
      (fuzzyGt q qa.question 75 = true) ↔ 75 < fuzzy_match q qa.question := by
    intro q qa
    rw [fuzzyGt_iff]
    simp only [decide_eq_true_eq]
    exact_mod_cast Iff.rfl
  constructor
  · intro kb uq q ts hex
    obtain ⟨qa, hmem, hqa⟩ := hex
    have hsome : (kb.find? (fun qa => fuzzyGt q qa.question 75)).isSome := by
      rw [List.find?_isSome]
      exact ⟨qa, hmem, (key q qa).2 hqa⟩
    obtain ⟨qa', hfind⟩ := Option.isSome_iff_exists.1 hsome
    obtain ⟨i, hi, hget, hpa, hfirst⟩ := find?_first_index _ kb qa' hfind
    refine ⟨i, hi, ?_, ?_, ?_⟩
    · rw [hget]; exact (key q qa').1 hpa
    · intro j hj hj1 hcon
      have := hfirst j hj hj1
      rw [(key q _).2 hcon] at this
      cases this
    · unfold handle_unknown_query
      rw [hfind, hget]
  · intro kb uq q ts hall
    have hnone : kb.find? (fun qa => fuzzyGt q qa.question 75) = none := by
      rw [List.find?_eq_none]
      intro qa hmem
      simp only [Bool.not_eq_true]
      cases hqa : fuzzyGt q qa.question 75
      · rfl
      · exact absurd ((key q qa).1 hqa) (hall qa hmem)
    constructor
    · unfold handle_unknown_query
      rw [hnone]
    · unfold handle_unknown_query
      rw [hnone]
      simp

/-- Claim C8 witness: a knowledge base whose only entry matches the query
exactly (ratio 100 > 75) answers verbatim with an untouched log. -/
theorem c8_unknown_witness :
    ∃ i, ∃ h : i < ([⟨"what is dbms", "DBMS answer"⟩] : List QA).length,
      75 < fuzzy_match "what is dbms"
        (([⟨"what is dbms", "DBMS answer"⟩] : List QA).get ⟨i, h⟩).question ∧
      (∀ j, ∀ hj : j < ([⟨"what is dbms", "DBMS answer"⟩] : List QA).length, j < i →
        ¬ 75 < fuzzy_match "what is dbms"
          (([⟨"what is dbms", "DBMS answer"⟩] : List QA).get ⟨j, hj⟩).question) ∧
      handle_unknown_query [⟨"what is dbms", "DBMS answer"⟩] [] "what is dbms" "t0"
        = (.text (([⟨"what is dbms", "DBMS answer"⟩] : List QA).get ⟨i, h⟩).answer, []) :=
  c8_unknown.1 [⟨"what is dbms", "DBMS answer"⟩] [] "what is dbms" "t0"
    ⟨⟨"what is dbms", "DBMS answer"⟩, by decide, by
      have h75 : fuzzyGt "what is dbms" "what is dbms" 75 = true := by decide
      rw [fuzzyGt_iff] at h75
      have := of_decide_eq_true h75
      exact_mod_cast this⟩

/-! ## Claim C6 -/

/-- Claim C6: on the example category set and query `"when is the
midterm"`, the global matcher returns the Midterm record's `key: value`
response and its accumulated score exceeds 15; in general (standard
categories only, no custom entries), the matcher returns no match exactly
when every record scores at most 15, any returned message belongs to a
record of maximal score above 15, and on no match the caller dispatches
on the classified intent. -/
theorem c6_global :
    (try_direct_keyword_match [] midtermInfo "when is the midterm"
        = some "**Midterm**: Oct 5" ∧
     15 < globalPairScore (expandedWords [] (preprocess_text "when is the midterm"))
        (preprocess_text "when is the midterm")
        ("Midterm", RVal.dict "Oct 5" ["midterm", "exam1"])) ∧
    (∀ (syn : SynTable) (info : InfoData) (q : String),
      info.custom_categories = [] →
      ((try_direct_keyword_match syn info q = none ↔
        ∀ kv ∈ stdPairs info,
          globalPairScore (expandedWords syn (preprocess_text q))
            (preprocess_text q) kv ≤ 15) ∧
       (∀ msg, try_direct_keyword_match syn info q = some msg →
        ∃ kv ∈ stdPairs info, msg = pairLine kv ∧
          15 < globalPairScore (expandedWords syn (preprocess_text q))
            (preprocess_text q) kv ∧
          ∀ kv' ∈ stdPairs info,
            globalPairScore (expandedWords syn (preprocess_text q))
                (preprocess_text q) kv'
              ≤ globalPairScore (expandedWords syn (preprocess_text q))
                (preprocess_text q) kv))) ∧
    (∀ (syn : SynTable) (info : InfoData) (md : List Note) (kb : List QA)
        (uq : List UnansweredQuery) (ts q : String),
      try_direct_keyword_match syn info q = none →
      process_query syn info md kb uq ts q
        = dispatchIntent syn info md kb uq ts q (detect_intent syn info q)) := by
  refine ⟨⟨by decide, by decide⟩, ?_, ?_⟩
  · intro syn info q hc
    have htd : try_direct_keyword_match syn info q =
        (if (bestFold 0 (globalPairScore (expandedWords syn (preprocess_text q))
              (preprocess_text q)) (stdPairs info)).1 > 15 then
          ((bestFold 0 (globalPairScore (expandedWords syn (preprocess_text q))
              (preprocess_text q)) (stdPairs info)).2).map pairLine
        else none) := by
      unfold try_direct_keyword_match
      rw [hc]
      rfl
    set f := globalPairScore (expandedWords syn (preprocess_text q))
      (preprocess_text q) with hf
    set acc := bestFold 0 f (stdPairs info) with hacc
    constructor
    · constructor
      · intro hnone kv hkv
        by_cases hgt : acc.1 > 15
        · exfalso
          rw [htd, if_pos hgt] at hnone
          cases hsnd : acc.2 with
          | none =>
              have h0 := bestFold_snd_none f (stdPairs info) 0 none hsnd
              have h1 : acc.1 = 0 := h0.2
              omega
          | some kv' => rw [hsnd] at hnone; cases hnone
        · exact le_trans (bestFold_fst_ge f (stdPairs info) 0 none kv hkv)
            (Nat.le_of_not_lt hgt)
      · intro hall
        rw [htd, if_neg ?_]
        exact Nat.not_lt.2 (bestFold_fst_le f (stdPairs info) 0 none 15
          (by omega) hall)
    · intro msg hmsg
      rw [htd] at hmsg
      by_cases hgt : acc.1 > 15
      · rw [if_pos hgt] at hmsg
        cases hsnd : acc.2 with
        | none => rw [hsnd] at hmsg; cases hmsg
        | some kv =>
            rw [hsnd] at hmsg
            have hkv := bestFold_snd_some f (stdPairs info) 0 none kv
              (fun y hy => by cases hy) hsnd
            rcases hkv.2 with h1 | h1
            · cases h1
            · refine ⟨kv, h1, ?_, ?_, ?_⟩
              · exact (Option.some_inj.1 hmsg).symm
              · rw [hkv.1]; exact hgt
              · intro kv' hkv'
                rw [hkv.1]
                exact bestFold_fst_ge f (stdPairs info) 0 none kv' hkv'
      · rw [if_neg hgt] at hmsg; cases hmsg
  · intro syn info md kb uq ts q h
    unfold process_query
    rw [h]

/-- Claim C6 witness: the general part at the Midterm category set and a
query that matches nothing. -/
theorem c6_global_witness :
    midtermInfo.custom_categories = [] ∧
    (try_direct_keyword_match [] midtermInfo "zzz" = none ↔
      ∀ kv ∈ stdPairs midtermInfo,
        globalPairScore (expandedWords [] (preprocess_text "zzz"))
          (preprocess_text "zzz") kv ≤ 15) :=
  ⟨rfl, (c6_global.2.1 [] midtermInfo "zzz" rfl).1⟩

/-! ## Claim C9 -/

/-- Evaluation form of `fuzzy_match` for computing concrete values. -/
theorem fuzzy_match_eval (q t : String) (m x y : Nat)
    (hm : matchSum (preprocessList q.data) (preprocessList t.data) = m)
    (hx : (preprocessList q.data).length = x)
    (hy : (preprocessList t.data).length = y)
    (hxy : ¬ x + y = 0) :
    fuzzy_match q t = 200 * (m : ℚ) / ((x : ℚ) + (y : ℚ)) := by
  unfold fuzzy_match
  rw [hm, hx, hy, if_neg hxy]

/-- Claim C9: the category-scoped matcher returns the fixed
no-information text on an empty (or absent, which loads as empty)
category; on a non-empty category it dumps every record as `key: value`
lines when no record scores above 5, and returns a single maximal
record's `key: value` exactly when some record scores above 5. -/
theorem c9_category :
    (∀ (cat q : String), handle_info_request cat [] q = .text (noInfoMsg cat)) ∧
    (∀ (cat q : String) (content : List (String × RVal)), content ≠ [] →
      ((∀ kv ∈ content, infoScore (preprocess_text q) kv ≤ 5) →
        handle_info_request cat content q = .text (dumpMsg content)) ∧
      ((∃ kv ∈ content, 5 < infoScore (preprocess_text q) kv) →
        ∃ kv ∈ content, handle_info_request cat content q = .text (pairLine kv) ∧
          5 < infoScore (preprocess_text q) kv ∧
          ∀ kv' ∈ content,
            infoScore (preprocess_text q) kv' ≤ infoScore (preprocess_text q) kv)) := by
  constructor
  · intro cat q; rfl
  · intro cat q content hne
    have hne' : content.isEmpty = false := by
      simpa [List.isEmpty_iff] using hne
    constructor
    · intro hall
      have hle : (bestFold 0 (infoScore (preprocess_text q)) content).1 ≤ 5 :=
        bestFold_fst_le _ content 0 none 5 (by norm_num) hall
      unfold handle_info_request
      rw [if_neg (by simp [hne'])]
      cases hsnd : (bestFold 0 (infoScore (preprocess_text q)) content).2 with
      | none => rfl
      | some kv => exact if_neg (not_lt.2 hle)
    · intro hex
      obtain ⟨kv0, hkv0, h5⟩ := hex
      have hgt : 5 < (bestFold 0 (infoScore (preprocess_text q)) content).1 :=
        lt_of_lt_of_le h5 (bestFold_fst_ge _ content 0 none kv0 hkv0)
      cases hsnd : (bestFold 0 (infoScore (preprocess_text q)) content).2 with
      | none =>
          exfalso
          have h0 : (bestFold 0 (infoScore (preprocess_text q)) content).1 = 0 :=
            (bestFold_snd_none _ content 0 none hsnd).2
          rw [h0] at hgt
          norm_num at hgt
      | some kv =>
          have hkv := bestFold_snd_some _ content 0 none kv
            (fun y hy => by cases hy) hsnd
          rcases hkv.2 with h1 | h1
          · cases h1
          · refine ⟨kv, h1, ?_, ?_, ?_⟩
            · unfold handle_info_request
              rw [if_neg (by simp [hne'])]
              rw [hsnd]
              exact if_pos hgt
            · rw [hkv.1]; exact hgt
            · intro kv' hkv'
              rw [hkv.1]
              exact bestFold_fst_ge _ content 0 none kv' hkv'

/-- Claim C9 witness: a one-record category sharing no character with the
query scores 0 and triggers the whole-category dump. -/
theorem c9_category_witness :
    plainContent ≠ [] ∧
    (∀ kv ∈ plainContent, infoScore (preprocess_text "zz") kv ≤ 5) ∧
    handle_info_request "faculty" plainContent "zz" = .text (dumpMsg plainContent) := by
  have hq : preprocess_text "zz" = "zz" := by decide
  have e1 : fuzzy_match "zz" "aa" = 0 := by
    rw [fuzzy_match_eval "zz" "aa" 0 2 2 (by decide) (by decide) (by decide) (by norm_num)]
    norm_num
  have e2 : fuzzy_match "zz" "bb" = 0 := by
    rw [fuzzy_match_eval "zz" "bb" 0 2 2 (by decide) (by decide) (by decide) (by norm_num)]
    norm_num
  have hscore : ∀ kv ∈ plainContent, infoScore (preprocess_text "zz") kv ≤ 5 := by
    intro kv hkv
    have hkv' : kv = ("aa", RVal.raw "bb") := by
      simpa [plainContent] using hkv
    rw [hkv']
    unfold infoScore
    rw [hq]
    simp only [List.foldl_nil]
    rw [show isSub "zz" (lowerString "aa") = false from by decide,
        show isSub "zz" (lowerString "bb") = false from by decide, e1, e2]
    norm_num
  exact ⟨by decide, hscore,
    (c9_category.2 "faculty" "zz" plainContent (by decide)).1 hscore⟩

/-! ## Claim C2 -/

/-- Bool coercion helper. -/
theorem bool_eq_false {b : Bool} (h : ¬ b = true) : b = false := by
  cases b
  · rfl
  · exact absurd rfl h

/-- The inserted space is whitespace. -/
theorem pyIsSpace_space : pyIsSpace ' ' = true := by decide

/-- ASCII lowercasing is idempotent. -/
theorem toLower_toLower (c : Char) : c.toLower.toLower = c.toLower := by
  unfold Char.toLower
  by_cases h : c.toNat ≥ 65 ∧ c.toNat ≤ 90
  · rw [if_pos h]
    have hv : (c.toNat + 32).isValidChar := Or.inl (by omega)
    have ht : (Char.ofNat (c.toNat + 32)).toNat = c.toNat + 32 := by
      rw [Char.ofNat, dif_pos hv]
      simp [Char.ofNatAux, Char.toNat, UInt32.toNat]
    rw [if_neg (by rw [ht]; omega)]
  · rw [if_neg h, if_neg h]

/-- A word character is never whitespace. -/
theorem word_not_space {x : Char} (h : pyIsWord x = true) : pyIsSpace x = false := by
  cases heq : pyIsSpace x
  · rfl
  · exfalso
    have hx : x = ' ' ∨ x = '\t' ∨ x = '\n' ∨ x = '\x0d' ∨ x = '\x0b' ∨ x = '\x0c' := by
      have := heq
      simp [pyIsSpace] at this
      tauto
    rcases hx with rfl | rfl | rfl | rfl | rfl | rfl <;> exact absurd h (by decide)

/-- Collapsing whitespace preserves whether the head is whitespace. -/
theorem headSpace_collapseWS : ∀ l : List Char, headSpace (collapseWS l) = headSpace l
  | [] => rfl
  | [c] => by
      by_cases h : pyIsSpace c = true
      · simp [collapseWS, headSpace, h, pyIsSpace_space]
      · simp [collapseWS, headSpace, h]
  | c :: d :: rest => by
      by_cases hc : pyIsSpace c = true <;> by_cases hd : pyIsSpace d = true
      · rw [show collapseWS (c :: d :: rest) = collapseWS (d :: rest) from by
          simp [collapseWS, hc, hd]]
        rw [headSpace_collapseWS (d :: rest)]
        simp [headSpace, hc, hd]
      · rw [show collapseWS (c :: d :: rest) = ' ' :: collapseWS (d :: rest) from by
          simp [collapseWS, hc, bool_eq_false hd]]
        simp [headSpace, hc, pyIsSpace_space]
      · rw [show collapseWS (c :: d :: rest) = c :: collapseWS (d :: rest) from by
          simp [collapseWS, bool_eq_false hc]]
        simp [headSpace]
      · rw [show collapseWS (c :: d :: rest) = c :: collapseWS (d :: rest) from by
          simp [collapseWS, bool_eq_false hc]]
        simp [headSpace]

/-- The collapsed list has no two adjacent whitespace characters. -/
theorem nts_collapseWS : ∀ l : List Char, nts (collapseWS l) = true
  | [] => rfl
  | [c] => by
      by_cases h : pyIsSpace c = true <;> simp [collapseWS, nts, headSpace, h]
  | c :: d :: rest => by
      have ih := nts_collapseWS (d :: rest)
      have hh : headSpace (collapseWS (d :: rest)) = pyIsSpace d :=
        headSpace_collapseWS (d :: rest)
      by_cases hc : pyIsSpace c = true <;> by_cases hd : pyIsSpace d = true
      · rw [show collapseWS (c :: d :: rest) = collapseWS (d :: rest) from by
          simp [collapseWS, hc, hd]]
        exact ih
      · rw [show collapseWS (c :: d :: rest) = ' ' :: collapseWS (d :: rest) from by
          simp [collapseWS, hc, bool_eq_false hd]]
        simp [nts, hh, bool_eq_false hd, ih]
      · rw [show collapseWS (c :: d :: rest) = c :: collapseWS (d :: rest) from by
          simp [collapseWS, bool_eq_false hc]]
        simp [nts, bool_eq_false hc, ih]
      · rw [show collapseWS (c :: d :: rest) = c :: collapseWS (d :: rest) from by
          simp [collapseWS, bool_eq_false hc]]
        simp [nts, bool_eq_false hc, ih]

/-- Characters of the collapsed list: the inserted space, or an original
non-whitespace character. -/
theorem mem_collapseWS :
    ∀ (l : List Char) (x : Char), x ∈ collapseWS l →
      x = ' ' ∨ (x ∈ l ∧ pyIsSpace x = false)
  | [], x, hx => by cases hx
  | [c], x, hx => by
      by_cases h : pyIsSpace c = true
      · simp [collapseWS, h] at hx
        exact Or.inl hx
      · simp [collapseWS, h] at hx
        exact Or.inr ⟨by simp [hx], hx ▸ bool_eq_false h⟩
  | c :: d :: rest, x, hx => by
      by_cases hc : pyIsSpace c = true <;> by_cases hd : pyIsSpace d = true
      · rw [show collapseWS (c :: d :: rest) = collapseWS (d :: rest) from by
          simp [collapseWS, hc, hd]] at hx
        rcases mem_collapseWS (d :: rest) x hx with h1 | ⟨h1, h2⟩
        · exact Or.inl h1
        · exact Or.inr ⟨List.mem_cons_of_mem c h1, h2⟩
      · rw [show collapseWS (c :: d :: rest) = ' ' :: collapseWS (d :: rest) from by
          simp [collapseWS, hc, bool_eq_false hd]] at hx
        rcases List.mem_cons.1 hx with rfl | h1
        · exact Or.inl rfl
        · rcases mem_collapseWS (d :: rest) x h1 with h2 | ⟨h2, h3⟩
          · exact Or.inl h2
          · exact Or.inr ⟨List.mem_cons_of_mem c h2, h3⟩
      all_goals
        rw [show collapseWS (c :: d :: rest) = c :: collapseWS (d :: rest) from by
          simp [collapseWS, bool_eq_false hc]] at hx
        rcases List.mem_cons.1 hx with rfl | h1
        · exact Or.inr ⟨List.mem_cons_self _ _, bool_eq_false hc⟩
        · rcases mem_collapseWS (d :: rest) x h1 with h2 | ⟨h2, h3⟩
          · exact Or.inl h2
          · exact Or.inr ⟨List.mem_cons_of_mem c h2, h3⟩

/-- Collapsing is the identity on lists whose only whitespace is `' '` and
which have no adjacent whitespace pair. -/
theorem collapseWS_eq_self :
    ∀ l : List Char, (∀ c ∈ l, pyIsSpace c = false ∨ c = ' ') →
      nts l = true → collapseWS l = l
  | [], _, _ => rfl
  | [c], hcl, _ => by
      by_cases h : pyIsSpace c = true
      · rcases hcl c (by simp) with h1 | rfl
        · rw [h] at h1; cases h1
        · simp [collapseWS, h]
      · simp [collapseWS, h]
  | c :: d :: rest, hcl, hnts => by
      have hnts' : ((!(pyIsSpace c && headSpace (d :: rest))) && nts (d :: rest)) = true :=
        hnts
      rw [Bool.and_eq_true] at hnts'
      obtain ⟨hn1, hrest⟩ := hnts'
      have hnd : pyIsSpace c = false ∨ pyIsSpace d = false := by
        simpa [headSpace] using hn1
      have ih := collapseWS_eq_self (d :: rest)
        (fun x hx => hcl x (List.mem_cons_of_mem c hx)) hrest
      by_cases hc : pyIsSpace c = true
      · have hdf : pyIsSpace d = false := by
          rcases hnd with h1 | h1
          · rw [hc] at h1; cases h1
          · exact h1
        rw [show collapseWS (c :: d :: rest)
            = (if pyIsSpace c then ' ' else c) :: collapseWS (d :: rest) from by
          simp [collapseWS, hc, hdf]]
        rcases hcl c (by simp) with h1 | rfl
        · rw [hc] at h1; cases h1
        · rw [ih]; simp
      · rw [show collapseWS (c :: d :: rest)
            = (if pyIsSpace c then ' ' else c) :: collapseWS (d :: rest) from by
          simp [collapseWS, bool_eq_false hc]]
        rw [ih]; simp [bool_eq_false hc]

/-- A map that fixes every member is the identity. -/
theorem map_eq_self_of {f : Char → Char} :
    ∀ l : List Char, (∀ c ∈ l, f c = c) → l.map f = l
  | [], _ => rfl
  | c :: rest, h => by
      rw [List.map_cons, h c (by simp),
        map_eq_self_of rest (fun x hx => h x (List.mem_cons_of_mem c hx))]

/-- Characters of `depunct`: the inserted space, or an original word or
whitespace character. -/
theorem mem_depunct (l : List Char) (x : Char) (hx : x ∈ depunct l) :
    x = ' ' ∨ (x ∈ l ∧ (pyIsWord x || pyIsSpace x) = true) := by
  unfold depunct at hx
  obtain ⟨c, hc, hcx⟩ := List.mem_map.1 hx
  by_cases h : (pyIsWord c || pyIsSpace c) = true
  · rw [if_pos h] at hcx
    exact Or.inr ⟨hcx ▸ hc, hcx ▸ h⟩
  · rw [if_neg h] at hcx
    exact Or.inl hcx.symm

/-- `depunct` fixes lists of word characters and whitespace. -/
theorem depunct_eq_self (l : List Char)
    (h : ∀ c ∈ l, (pyIsWord c || pyIsSpace c) = true) : depunct l = l :=
  map_eq_self_of l (fun c hc => if_pos (h c hc))

/-- `lowerList` fixes lists of already-lowercase characters. -/
theorem lowerList_eq_self (l : List Char)
    (h : ∀ c ∈ l, c.toLower = c) : lowerList l = l :=
  map_eq_self_of l h

/-- After dropping leading whitespace, the head is not whitespace. -/
theorem headSpace_dropWhile :
    ∀ l : List Char, headSpace (l.dropWhile pyIsSpace) = false
  | [] => rfl
  | c :: rest => by
      rw [List.dropWhile_cons]
      by_cases h : pyIsSpace c = true
      · rw [if_pos h]
        exact headSpace_dropWhile rest
      · rw [if_neg (by simp [h])]
        simpa [headSpace] using bool_eq_false h

/-- `dropWhile pyIsSpace` fixes a list whose head is not whitespace. -/
theorem dropWhile_eq_self (l : List Char) (h : headSpace l = false) :
    l.dropWhile pyIsSpace = l := by
  cases l with
  | nil => rfl
  | cons c rest =>
      rw [List.dropWhile_cons, if_neg (by simp [headSpace] at h; simp [h])]

/-- A prefix of a list with non-whitespace head also has non-whitespace
head. -/
theorem headSpace_of_isPrefix {y x : List Char} (h : y <+: x)
    (hx : headSpace x = false) : headSpace y = false := by
  obtain ⟨t, rfl⟩ := h
  cases y with
  | nil => rfl
  | cons c rest => simpa [headSpace] using hx

/-- The stripped list is a prefix of the leading-whitespace-dropped list. -/
theorem stripList_isPrefix (l : List Char) :
    stripList l <+: l.dropWhile pyIsSpace := by
  unfold stripList
  have h1 : ((l.dropWhile pyIsSpace).reverse.dropWhile pyIsSpace)
      <:+ (l.dropWhile pyIsSpace).reverse := List.dropWhile_suffix pyIsSpace
  have h2 := List.reverse_prefix.2 h1
  simpa using h2

/-- Stripping keeps only original characters. -/
theorem stripList_subset (l : List Char) : stripList l ⊆ l := by
  intro x hx
  have h1 := (stripList_isPrefix l).subset hx
  exact (List.dropWhile_suffix pyIsSpace).subset h1

/-- The stripped list has a non-whitespace head. -/
theorem headSpace_stripList (l : List Char) : headSpace (stripList l) = false :=
  headSpace_of_isPrefix (stripList_isPrefix l) (headSpace_dropWhile l)

/-- Stripping is idempotent. -/
theorem stripList_idem (l : List Char) : stripList (stripList l) = stripList l := by
  have h1 : (stripList l).dropWhile pyIsSpace = stripList l :=
    dropWhile_eq_self _ (headSpace_stripList l)
  have h2 : (stripList l).reverse
      = (l.dropWhile pyIsSpace).reverse.dropWhile pyIsSpace := by
    unfold stripList
    rw [List.reverse_reverse]
  show (((stripList l).dropWhile pyIsSpace).reverse.dropWhile pyIsSpace).reverse
      = stripList l
  rw [h1, h2, dropWhile_eq_self _ (headSpace_dropWhile _)]
  unfold stripList
  rfl

/-- `nts` is the no-two-adjacent-whitespace chain condition. -/
theorem nts_iff_chain :
    ∀ l : List Char, nts l = true ↔
      l.Chain' (fun a b => ¬(pyIsSpace a = true ∧ pyIsSpace b = true))
  | [] => by simp [nts]
  | c :: rest => by
      have ih := nts_iff_chain rest
      rw [List.chain'_cons']
      constructor
      · intro h
        have h' : ((!(pyIsSpace c && headSpace rest)) && nts rest) = true := h
        rw [Bool.and_eq_true] at h'
        refine ⟨?_, ih.1 h'.2⟩
        intro y hy
        cases rest with
        | nil => cases hy
        | cons d tail =>
            have hyd : y = d := by
              have := hy
              simp at this
              exact this.symm
            subst hyd
            intro hcon
            obtain ⟨ha, hb⟩ := hcon
            have h1' := h'.1
            rw [ha, show headSpace (y :: tail) = pyIsSpace y from rfl, hb] at h1'
            simp at h1'
      · intro h
        obtain ⟨h1, h2⟩ := h
        show ((!(pyIsSpace c && headSpace rest)) && nts rest) = true
        rw [Bool.and_eq_true]
        refine ⟨?_, ih.2 h2⟩
        cases rest with
        | nil =>
            show (!(pyIsSpace c && headSpace ([] : List Char))) = true
            rw [show headSpace ([] : List Char) = false from rfl]
            simp
        | cons d tail =>
            have hR := h1 d (by simp)
            rw [show headSpace (d :: tail) = pyIsSpace d from rfl]
            cases hc : pyIsSpace c with
            | false => rfl
            | true =>
                cases hd : pyIsSpace d with
                | false => rfl
                | true => exact absurd ⟨hc, hd⟩ hR

/-- Stripping preserves the no-adjacent-whitespace invariant. -/
theorem nts_stripList (l : List Char) (h : nts l = true) :
    nts (stripList l) = true := by
  have hC : l.Chain' (fun a b => ¬(pyIsSpace a = true ∧ pyIsSpace b = true)) :=
    (nts_iff_chain l).1 h
  have hsym : ∀ a b : Char, ¬(pyIsSpace a = true ∧ pyIsSpace b = true) →
      ¬(pyIsSpace b = true ∧ pyIsSpace a = true) :=
    fun a b hab hcon => hab ⟨hcon.2, hcon.1⟩
  have hC1 : (l.dropWhile pyIsSpace).Chain'
      (fun a b => ¬(pyIsSpace a = true ∧ pyIsSpace b = true)) := by
    obtain ⟨t, ht⟩ := List.dropWhile_suffix (l := l) pyIsSpace
    rw [← ht] at hC
    exact (List.chain'_append.1 hC).2.1
  have hC2 : ((l.dropWhile pyIsSpace).reverse).Chain'
      (fun a b => ¬(pyIsSpace a = true ∧ pyIsSpace b = true)) := by
    rw [List.chain'_reverse]
    exact hC1.imp hsym
  have hC3 : ((l.dropWhile pyIsSpace).reverse.dropWhile pyIsSpace).Chain'
      (fun a b => ¬(pyIsSpace a = true ∧ pyIsSpace b = true)) := by
    obtain ⟨t, ht⟩ := List.dropWhile_suffix
      (l := (l.dropWhile pyIsSpace).reverse) pyIsSpace
    rw [← ht] at hC2
    exact (List.chain'_append.1 hC2).2.1
  have hC4 : (stripList l).Chain'
      (fun a b => ¬(pyIsSpace a = true ∧ pyIsSpace b = true)) := by
    unfold stripList
    rw [List.chain'_reverse]
    exact hC3.imp hsym
  exact (nts_iff_chain _).2 hC4

/-- On a list of lowercase word characters and single spaces with no
adjacent whitespace, preprocessing only strips the boundary spaces. -/
theorem preprocessList_eq_strip (v : List Char)
    (hA : ∀ x ∈ v, (pyIsWord x = true ∧ x.toLower = x) ∨ x = ' ')
    (hnts : nts v = true) :
    preprocessList v = stripList v := by
  unfold preprocessList
  rw [lowerList_eq_self v (fun c hc => by
    rcases hA c hc with ⟨_, h2⟩ | rfl
    · exact h2
    · rfl)]
  have hsub := stripList_subset v
  rw [depunct_eq_self _ (fun c hc => by
    rcases hA c (hsub hc) with ⟨h1, _⟩ | rfl
    · simp [h1]
    · simp [pyIsSpace_space])]
  exact collapseWS_eq_self _ (fun c hc => by
    rcases hA c (hsub hc) with ⟨h1, _⟩ | rfl
    · exact Or.inl (word_not_space h1)
    · exact Or.inr rfl) (nts_stripList v hnts)

/-- Preprocessed text consists of lowercase word characters and single
spaces. -/
theorem clean_preprocessList (l : List Char) :
    ∀ x ∈ preprocessList l, (pyIsWord x = true ∧ x.toLower = x) ∨ x = ' ' := by
  intro x hx
  unfold preprocessList at hx
  rcases mem_collapseWS _ x hx with h1 | ⟨h1, hsp⟩
  · exact Or.inr h1
  · rcases mem_depunct _ x h1 with h2 | ⟨h2, hws⟩
    · exact Or.inr h2
    · left
      have hword : pyIsWord x = true := by
        rw [hsp, Bool.or_false] at hws
        exact hws
      refine ⟨hword, ?_⟩
      have h3 : x ∈ lowerList l := stripList_subset _ h2
      obtain ⟨c, _, hcx⟩ := List.mem_map.1 h3
      rw [← hcx]
      exact toLower_toLower c

/-- Preprocessed text has no adjacent whitespace. -/
theorem nts_preprocessList (l : List Char) : nts (preprocessList l) = true :=
  nts_collapseWS _

/-- The list-level form of the amended idempotence: from the second
application on, preprocessing is stable. -/
theorem preprocessList_idem2 (l : List Char) :
    preprocessList (preprocessList (preprocessList l))
      = preprocessList (preprocessList l) := by
  have hA := clean_preprocessList l
  have hnts := nts_preprocessList l
  have h2 : preprocessList (preprocessList l) = stripList (preprocessList l) :=
    preprocessList_eq_strip _ hA hnts
  have h3 : preprocessList (stripList (preprocessList l))
      = stripList (stripList (preprocessList l)) :=
    preprocessList_eq_strip _ (fun x hx => hA x (stripList_subset _ hx))
      (nts_stripList _ hnts)
  rw [h2, h3, stripList_idem]

/-- Claim C2 counterexample: `preprocess_text` strips BEFORE replacing
punctuation, so `"hi!"` normalizes to `"hi "` with a trailing space, and a
second application gives `"hi"`: the normalizer is not idempotent and its
output can carry trailing whitespace. -/
theorem c2_counterexample :
    preprocess_text "hi!" = "hi " ∧
    preprocess_text (preprocess_text "hi!") ≠ preprocess_text "hi!" :=
  ⟨by decide, by decide⟩

/-- Claim C2 (amended): the code's normalizer strips before replacing
punctuation, so a single application can leave one leading or trailing
space; it is idempotent from the second application on:
`normalize (normalize (normalize s)) = normalize (normalize s)` for every
string `s`. -/
theorem c2_norm_stable_after_two :
    ∀ s : String, preprocess_text (preprocess_text (preprocess_text s))
      = preprocess_text (preprocess_text s) := by
  intro s
  show String.mk (preprocessList (preprocessList (preprocessList s.data)))
    = String.mk (preprocessList (preprocessList s.data))
  exact congrArg String.mk (preprocessList_idem2 s.data)

/-- Claim C2 witness: the amended idempotence evaluated at `"hi!"`. -/
theorem c2_norm_stable_after_two_witness :
    preprocess_text (preprocess_text (preprocess_text "hi!"))
      = preprocess_text (preprocess_text "hi!") :=
  c2_norm_stable_after_two "hi!"

/-! ## Claim C1 -/

/-- If no candidate chain length beats the running best, the inner loop
leaves the best block unchanged. -/
theorem inner_fold_fst (g : Nat → Nat) (i : Nat) :
    ∀ (js : List Nat) (st : FlmState) (f : Nat → Nat),
      (∀ j ∈ js, kval g j ≤ st.bestsize) →
      (js.foldl (innerStep g i) (st, f)).1 = st
  | [], _, _, _ => rfl
  | j :: js', st, f, h => by
      rw [List.foldl_cons]
      have h1 : innerStep g i (st, f) j
          = (st, fun x => if x = j then kval g j else f x) := by
        unfold innerStep
        rw [if_neg (not_lt.2 (h j (List.mem_cons_self j js')))]
      rw [h1]
      exact inner_fold_fst g i js' st _
        (fun x hx => h x (List.mem_cons_of_mem j hx))

/-- The new `j2len` map only holds candidate chain lengths: any pointwise
bound on the start map and on the candidates bounds the result. -/
theorem inner_fold_snd_le (g : Nat → Nat) (i : Nat) :
    ∀ (js : List Nat) (st : FlmState) (f : Nat → Nat) (B : Nat → Nat),
      (∀ x, f x ≤ B x) → (∀ j ∈ js, kval g j ≤ B j) →
      ∀ x, (js.foldl (innerStep g i) (st, f)).2 x ≤ B x
  | [], _, _, _, hf, _, x => hf x
  | j :: js', st, f, B, hf, hk, x => by
      rw [List.foldl_cons]
      show ((js'.foldl (innerStep g i) (innerStep g i (st, f) j)).2) x ≤ B x
      have h1 : innerStep g i (st, f) j
          = ((innerStep g i (st, f) j).1,
             fun y => if y = j then kval g j else f y) := rfl
      rw [h1]
      refine inner_fold_snd_le g i js' _ _ B ?_
        (fun y hy => hk y (List.mem_cons_of_mem j hy)) x
      intro y
      by_cases hy : y = j
      · subst hy
        simpa using hk y (List.mem_cons_self y js')
      · simpa [hy] using hf y

/-- Positions not scanned by the inner loop keep their start-map value. -/
theorem inner_fold_snd_eq (g : Nat → Nat) (i : Nat) :
    ∀ (js : List Nat) (st : FlmState) (f : Nat → Nat) (x : Nat), x ∉ js →
      (js.foldl (innerStep g i) (st, f)).2 x = f x
  | [], _, _, _, _ => rfl
  | j :: js', st, f, x, hx => by
      rw [List.foldl_cons]
      have hxj : x ≠ j := fun h => hx (h ▸ List.mem_cons_self j js')
      have h1 : innerStep g i (st, f) j
          = ((innerStep g i (st, f) j).1,
             fun y => if y = j then kval g j else f y) := rfl
      rw [h1]
      rw [inner_fold_snd_eq g i js' _ _ x
        (fun h => hx (List.mem_cons_of_mem j h))]
      exact if_neg hxj

/-- One outer iteration on identical strings: the diagonal chain reaches
length `m + 1` at position `m`, wins the strict best-update first (all
other candidates are too short or arrive later), and the invariants are
re-established. -/
theorem outerStep_diag (l : List Char) (m : Nat) (hm : m < l.length)
    (f : Nat → Nat) (hfb : ∀ x, f x ≤ min (x + 1) m)
    (hfd : 1 ≤ m → f (m - 1) = m) :
    (outerStep l l 0 l.length (⟨0, 0, m⟩, f) m).1 = ⟨0, 0, m + 1⟩ ∧
    (∀ x, (outerStep l l 0 l.length (⟨0, 0, m⟩, f) m).2 x ≤ min (x + 1) (m + 1)) ∧
    (outerStep l l 0 l.length (⟨0, 0, m⟩, f) m).2 m = m + 1 := by
  have hjs : jsFor l l 0 l.length m
      = (List.range l.length).filter (fun j => l.get? j == l.get? m) := by
    unfold jsFor
    refine List.filter_congr ?_
    intro j hj
    have hjn : j < l.length := List.mem_range.1 hj
    simp [hjn]
  have hsplit : (List.range l.length).filter (fun j => l.get? j == l.get? m)
      = (List.range m).filter (fun j => l.get? j == l.get? m)
        ++ m :: (List.range' (m + 1) (l.length - m - 1)).filter
            (fun j => l.get? j == l.get? m) := by
    have h1 : List.range l.length = List.range m ++ List.range' m (l.length - m) := by
      rw [List.range_eq_range', List.range_eq_range']
      have h2 := List.range'_append 0 m (l.length - m) 1
      simp only [Nat.one_mul, Nat.zero_add] at h2
      rw [h2]
      congr 1
      omega
    have h3 : List.range' m (l.length - m)
        = m :: List.range' (m + 1) (l.length - m - 1) := by
      have h4 : l.length - m = (l.length - m - 1) + 1 := by omega
      conv_lhs => rw [h4]
      rw [List.range'_succ]
    rw [h1, List.filter_append]
    conv_lhs => rw [h3]
    simp only [List.filter_cons]
    rw [if_pos (beq_self_eq_true (l.get? m))]
  have houter : outerStep l l 0 l.length (⟨0, 0, m⟩, f) m
      = (jsFor l l 0 l.length m).foldl (innerStep f m) (⟨0, 0, m⟩, fun _ => 0) := rfl
  have hmem1 : ∀ j ∈ (List.range m).filter (fun j => l.get? j == l.get? m),
      j < m := by
    intro j hj
    exact List.mem_range.1 (List.mem_of_mem_filter hj)
  have hmem2 : ∀ j ∈ (List.range' (m + 1) (l.length - m - 1)).filter
      (fun j => l.get? j == l.get? m), m + 1 ≤ j := by
    intro j hj
    exact (List.mem_range'_1.1 (List.mem_of_mem_filter hj)).1
  have hk1 : ∀ j ∈ (List.range m).filter (fun j => l.get? j == l.get? m),
      kval f j ≤ m := by
    intro j hj
    have hjm := hmem1 j hj
    unfold kval
    by_cases hj0 : j = 0
    · rw [if_pos hj0]; omega
    · rw [if_neg hj0]
      have h5 : f (j - 1) ≤ (j - 1) + 1 := le_trans (hfb _) (min_le_left _ _)
      omega
  have hk1' : ∀ j ∈ (List.range m).filter (fun j => l.get? j == l.get? m),
      kval f j ≤ min (j + 1) m := by
    intro j hj
    have hjm := hmem1 j hj
    refine le_min ?_ (hk1 j hj)
    unfold kval
    by_cases hj0 : j = 0
    · rw [if_pos hj0]; omega
    · rw [if_neg hj0]
      have h5 : f (j - 1) ≤ (j - 1) + 1 := le_trans (hfb _) (min_le_left _ _)
      omega
  have hkm : kval f m = m + 1 := by
    unfold kval
    by_cases h0 : m = 0
    · rw [if_pos h0, h0]
    · rw [if_neg h0, hfd (by omega)]
  have hk2 : ∀ j ∈ (List.range' (m + 1) (l.length - m - 1)).filter
      (fun j => l.get? j == l.get? m), kval f j ≤ m + 1 := by
    intro j hj
    have hjm := hmem2 j hj
    unfold kval
    rw [if_neg (by omega)]
    have h5 : f (j - 1) ≤ m := le_trans (hfb _) (min_le_right _ _)
    omega
  have hA := inner_fold_fst f m
    ((List.range m).filter (fun j => l.get? j == l.get? m)) ⟨0, 0, m⟩
    (fun _ => 0) hk1
  have hB := inner_fold_snd_le f m
    ((List.range m).filter (fun j => l.get? j == l.get? m)) ⟨0, 0, m⟩
    (fun _ => 0) (fun x => min (x + 1) m) (fun x => Nat.zero_le _) hk1'
  have hpair : innerStep f m (((List.range m).filter
        (fun j => l.get? j == l.get? m)).foldl (innerStep f m)
        (⟨0, 0, m⟩, fun _ => 0)) m
      = (⟨0, 0, m + 1⟩,
         fun x => if x = m then m + 1 else
           (((List.range m).filter (fun j => l.get? j == l.get? m)).foldl
             (innerStep f m) (⟨0, 0, m⟩, fun _ => 0)).2 x) := by
    have hbs : (((List.range m).filter (fun j => l.get? j == l.get? m)).foldl
        (innerStep f m) (⟨0, 0, m⟩, fun _ => 0)).1.bestsize = m := by
      rw [hA]
    rw [innerStep, hkm, hbs, if_pos (Nat.lt_succ_self m), Nat.sub_self]
  rw [houter, hjs, hsplit, List.foldl_append, List.foldl_cons, hpair]
  refine ⟨?_, ?_, ?_⟩
  · exact inner_fold_fst f m _ _ _ hk2
  · refine inner_fold_snd_le f m _ _ _ _ ?_ ?_
    · intro y
      by_cases hy : y = m
      · subst hy
        simp
      · rw [if_neg hy]
        refine le_trans (hB y) ?_
        exact le_min (min_le_left _ _) (le_trans (min_le_right _ _) (by omega))
    · intro j hj
      refine le_min ?_ (hk2 j hj)
      have hjm := hmem2 j hj
      have := hk2 j hj
      omega
  · rw [inner_fold_snd_eq f m _ _ _ m (fun h => by
      have := hmem2 m h
      omega)]
    simp

/-- The DP invariant propagated through all outer iterations on identical
strings: the recorded best block is the full diagonal prefix. -/
theorem dp_diag (l : List Char) :
    ∀ m, m ≤ l.length →
      (dpFold l m).1 = ⟨0, 0, m⟩ ∧
      (∀ x, (dpFold l m).2 x ≤ min (x + 1) m) ∧
      (1 ≤ m → (dpFold l m).2 (m - 1) = m) := by
  intro m
  induction m with
  | zero =>
    intro _
    exact ⟨rfl, fun x => Nat.zero_le _, fun h => absurd h (by omega)⟩
  | succ m ih =>
    intro hm1
    have hm : m < l.length := by omega
    obtain ⟨ih1, ih2, ih3⟩ := ih (by omega)
    have hfold : dpFold l (m + 1)
        = outerStep l l 0 l.length (dpFold l m) m := by
      unfold dpFold
      have h2 := List.range'_append 0 m 1 1
      simp only [Nat.one_mul, Nat.zero_add] at h2
      rw [Nat.add_comm 1 m] at h2
      rw [← h2, List.foldl_append]
      rfl
    have hpr : dpFold l m = (⟨0, 0, m⟩, (dpFold l m).2) := Prod.ext ih1 rfl
    obtain ⟨o1, o2, o3⟩ := outerStep_diag l m hm ((dpFold l m).2) ih2 ih3
    refine ⟨?_, ?_, ?_⟩
    · rw [hfold, hpr]
      exact o1
    · intro x
      rw [hfold, hpr]
      exact o2 x
    · intro _
      rw [hfold, hpr]
      exact o3

/-- On identical strings over the full range the DP stage finds the block
`(0, 0, length)`. -/
theorem flmDP_diag (l : List Char) :
    flmDP l l 0 l.length 0 l.length = ⟨0, 0, l.length⟩ :=
  (dp_diag l l.length le_rfl).1

/-- The backward extension loop stops at once when the block already starts
at the left boundary. -/
theorem extendBack_stop (a b : List Char) (alo blo fuel bi bj bs : Nat)
    (h : ¬ alo < bi) :
    extendBack a b alo blo fuel bi bj bs = (bi, bj, bs) := by
  cases fuel with
  | zero => rfl
  | succ f =>
    show (if alo < bi ∧ blo < bj ∧ (a.get? (bi - 1)).isSome ∧
        a.get? (bi - 1) = b.get? (bj - 1) then
        extendBack a b alo blo f (bi - 1) (bj - 1) (bs + 1)
      else (bi, bj, bs)) = (bi, bj, bs)
    exact if_neg (fun hc => h hc.1)

/-- The forward extension loop stops at once when the block already reaches
the right boundary. -/
theorem extendFwd_stop (a b : List Char) (ahi bhi fuel bi bj bs : Nat)
    (h : ¬ bi + bs < ahi) :
    extendFwd a b ahi bhi fuel bi bj bs = bs := by
  cases fuel with
  | zero => rfl
  | succ f =>
    show (if bi + bs < ahi ∧ bj + bs < bhi ∧ (a.get? (bi + bs)).isSome ∧
        a.get? (bi + bs) = b.get? (bj + bs) then
        extendFwd a b ahi bhi f bi bj (bs + 1)
      else bs) = bs
    exact if_neg (fun hc => h hc.1)

/-- `find_longest_match` on identical strings over the full range returns
the whole string as one block. -/
theorem find_longest_match_self (l : List Char) :
    find_longest_match l l 0 l.length 0 l.length = (0, 0, l.length) := by
  unfold find_longest_match
  rw [flmDP_diag]
  show (0, 0, extendFwd l l l.length l.length l.length 0 0 l.length)
    = (0, 0, l.length)
  rw [extendFwd_stop l l l.length l.length l.length 0 0 l.length (by omega)]

/-- `find_longest_match` on an empty range returns an empty block. -/
theorem find_longest_match_empty (a b : List Char) (alo blo : Nat) :
    find_longest_match a b alo alo blo blo = (alo, blo, 0) := by
  have hdp : flmDP a b alo alo blo blo = ⟨alo, blo, 0⟩ := by
    unfold flmDP
    rw [Nat.sub_self]
    rfl
  unfold find_longest_match
  rw [hdp]
  show ((extendBack a b alo blo alo alo blo 0).1,
    (extendBack a b alo blo alo alo blo 0).2.1,
    extendFwd a b alo blo alo (extendBack a b alo blo alo alo blo 0).1
      (extendBack a b alo blo alo alo blo 0).2.1
      (extendBack a b alo blo alo alo blo 0).2.2) = (alo, blo, 0)
  rw [extendBack_stop a b alo blo alo alo blo 0 (by omega)]
  show (alo, blo, extendFwd a b alo blo alo alo blo 0) = (alo, blo, 0)
  rw [extendFwd_stop a b alo blo alo alo blo 0 (by omega)]

/-- The recursive block sum over an empty range is zero, for every fuel. -/
theorem matchSumAux_empty (a b : List Char) (fuel alo blo : Nat) :
    matchSumAux a b fuel alo alo blo blo = 0 := by
  cases fuel with
  | zero => rfl
  | succ f =>
    show (if (find_longest_match a b alo alo blo blo).2.2 = 0 then 0
      else (find_longest_match a b alo alo blo blo).2.2 +
        matchSumAux a b f alo (find_longest_match a b alo alo blo blo).1 blo
          (find_longest_match a b alo alo blo blo).2.1 +
        matchSumAux a b f
          ((find_longest_match a b alo alo blo blo).1 +
            (find_longest_match a b alo alo blo blo).2.2) alo
          ((find_longest_match a b alo alo blo blo).2.1 +
            (find_longest_match a b alo alo blo blo).2.2) blo) = 0
    rw [find_longest_match_empty]
    exact if_pos rfl

/-- `M` between a list and itself is its full length: the first call finds
the whole string as one block and both recursive calls see empty ranges. -/
theorem matchSum_self (l : List Char) : matchSum l l = l.length := by
  show matchSumAux l l (l.length + l.length + 1) 0 l.length 0 l.length
    = l.length
  show (if (find_longest_match l l 0 l.length 0 l.length).2.2 = 0 then 0
    else (find_longest_match l l 0 l.length 0 l.length).2.2 +
      matchSumAux l l (l.length + l.length) 0
        (find_longest_match l l 0 l.length 0 l.length).1 0
        (find_longest_match l l 0 l.length 0 l.length).2.1 +
      matchSumAux l l (l.length + l.length)
        ((find_longest_match l l 0 l.length 0 l.length).1 +
          (find_longest_match l l 0 l.length 0 l.length).2.2) l.length
        ((find_longest_match l l 0 l.length 0 l.length).2.1 +
          (find_longest_match l l 0 l.length 0 l.length).2.2) l.length)
    = l.length
  rw [find_longest_match_self]
  by_cases h0 : l.length = 0
  · rw [if_pos h0, h0]
  · rw [if_neg h0, Nat.zero_add, matchSumAux_empty, matchSumAux_empty]
    show l.length + 0 + 0 = l.length
    omega

/-- `fuzzy_match` of any string with itself is exactly 100 (both arguments
preprocess to the same character list; the empty case hits difflib's
`1.0`-on-empty branch). -/
theorem fuzzy_self (s : String) : fuzzy_match s s = 100 := by
  unfold fuzzy_match
  by_cases h : (preprocessList s.data).length + (preprocessList s.data).length
      = 0
  · rw [if_pos h]
  · rw [if_neg h, matchSum_self]
    have hn : (preprocessList s.data).length ≠ 0 := by omega
    have hq : ((preprocessList s.data).length : ℚ) ≠ 0 := Nat.cast_ne_zero.2 hn
    field_simp
    ring

/-- Counterexample to claim C1: the code returns 100, not 0, on two empty
strings (difflib's `_calculate_ratio` returns `1.0` when the total length
is zero), and the ratio is not symmetric: preprocessing gives `"ab cd"`
versus `"cd abc"`, whose matched total is 3 one way (first-longest-block
tie-breaking picks `"cd"` after `"ab"`) but 2 the other way. -/
theorem c1_counterexample :
    fuzzy_match "" "" = 100 ∧ (100 : ℚ) ≠ 0 ∧
    fuzzy_match "ab?cd" "cd!abc" ≠ fuzzy_match "cd!abc" "ab?cd" := by
  refine ⟨rfl, by norm_num, ?_⟩
  rw [fuzzy_match_eval "ab?cd" "cd!abc" 3 5 6 (by decide) (by decide)
      (by decide) (by decide),
    fuzzy_match_eval "cd!abc" "ab?cd" 2 6 5 (by decide) (by decide)
      (by decide) (by decide)]
  norm_num

/-- Claim C1 (corrected): `fuzzy_match s s = 100` for EVERY string `s`,
including the empty string (so `ratio("","") = 100`, not the claimed 0),
and the ratio is not symmetric in general, witnessed by the concrete pair
`"ab?cd"`, `"cd!abc"`. -/
theorem c1_ratio_self :
    (∀ s : String, fuzzy_match s s = 100) ∧
    fuzzy_match "" "" = 100 ∧
    fuzzy_match "ab?cd" "cd!abc" ≠ fuzzy_match "cd!abc" "ab?cd" := by
  refine ⟨fun s => fuzzy_self s, rfl, ?_⟩
  rw [fuzzy_match_eval "ab?cd" "cd!abc" 3 5 6 (by decide) (by decide)
      (by decide) (by decide),
    fuzzy_match_eval "cd!abc" "ab?cd" 2 6 5 (by decide) (by decide)
      (by decide) (by decide)]
  norm_num

/-- The corrected C1 statement at a concrete input. -/
theorem c1_ratio_self_witness : fuzzy_match "study plan" "study plan" = 100 :=
  c1_ratio_self.1 "study plan"
